import Mathlib

/-!
Verification of the conflict-resolution module of a JSON-patch demo.

The module offers three operations over immutable value records:
`resolveConflicts` merges a flat patch list given conflicts, user
resolutions and custom overrides; `generateResolvedPatch` flattens patch
groups, computes the unresolved option hashes and delegates to the merge;
`initializeResolutions` seeds one default resolution per conflict with a
non-empty option list.

The embedding is a direct translation: JavaScript arrays become `List`,
`Array.prototype.find` becomes `List.find?`, and the insertion-ordered
`Set` used for included patches and unresolved hashes becomes a left fold
that appends an element only when it is not already present (JavaScript
`Set` iteration order is insertion order).  The `value?: unknown` field of
a patch is a type parameter `V` with decidable equality.
-/

/-- Patch operation kind: `'add' | 'remove' | 'replace'`. -/
inductive PatchOperation where
  | add
  | remove
  | replace
  deriving DecidableEq

/-- A JSON patch: operation, target path, optional value, content hash. -/
structure Patch (V : Type) where
  op : PatchOperation
  path : String
  value : Option V
  hash : String
  deriving DecidableEq

/-- A detected conflict: a path and the candidate option hashes. -/
structure ConflictDetail where
  path : String
  options : List String
  deriving DecidableEq

/-- A user's choice of which candidate hash wins for a conflicting path. -/
structure ConflictResolution where
  path : String
  selectedHash : String
  deriving DecidableEq

/-- A caller-fabricated replacement patch for a path. -/
structure CustomConflictResolution (V : Type) where
  path : String
  patch : Patch V
  deriving DecidableEq

/-- The result record of `generateResolvedPatch`. -/
structure ResolvedPatchResult (V : Type) where
  unresolvedConflicts : List String
  resolvedPatches : List (Patch V)
  deriving DecidableEq

variable {V : Type} [DecidableEq V]

/-- `findMatchingPatch`: first patch whose `hash` equals `optionHash`
(`patches.find(patch => patch.hash === optionHash)`). -/
def findMatchingPatch (patches : List (Patch V)) (optionHash : String) :
    Option (Patch V) :=
  patches.find? (fun patch => patch.hash = optionHash)

/-- The per-conflict branch of the `conflicts.forEach` loop in
`resolveConflicts`: the patch added to `includedPatches` for this conflict,
or `none` when nothing is added.  A resolution whose `selectedHash` is
among the options selects that hash; otherwise a non-empty option list
falls back to its first element; the hash is then looked up with
`findMatchingPatch`, and a lookup miss contributes nothing. -/
def selectForConflict (patches : List (Patch V))
    (resolutions : List ConflictResolution) (conflict : ConflictDetail) :
    Option (Patch V) :=
  match resolutions.find? (fun res => res.path = conflict.path) with
  | some resolution =>
      if resolution.selectedHash ∈ conflict.options then
        findMatchingPatch patches resolution.selectedHash
      else if conflict.options.length > 0 then
        findMatchingPatch patches (conflict.options.headD "")
      else
        none
  | none =>
      if conflict.options.length > 0 then
        findMatchingPatch patches (conflict.options.headD "")
      else
        none

/-- The contents of the `includedPatches` set after the `forEach` loop, in
insertion order: fold over the conflicts, adding each selected patch
unless an equal one is already present (`Set.add` deduplication). -/
def includedPatchesList (patches : List (Patch V))
    (conflicts : List ConflictDetail)
    (resolutions : List ConflictResolution) : List (Patch V) :=
  conflicts.foldl
    (fun acc conflict =>
      match selectForConflict patches resolutions conflict with
      | some p => if p ∈ acc then acc else acc ++ [p]
      | none => acc)
    []

/-- `resolveConflicts`: with no conflicts, a copy of the input; otherwise
non-conflicting patches, then the included-patch set in insertion order,
then the custom-resolution patches. -/
def resolveConflicts (patches : List (Patch V))
    (conflicts : List ConflictDetail)
    (resolutions : List ConflictResolution)
    (customResolutions : List (CustomConflictResolution V)) :
    List (Patch V) :=
  if conflicts.length = 0 then
    patches
  else
    patches.filter
        (fun patch =>
          patch.path ∉ conflicts.map (fun conflict => conflict.path)) ++
      includedPatchesList patches conflicts resolutions ++
      (if customResolutions.length > 0 then
        customResolutions.map (fun cr => cr.patch)
      else
        [])

/-- The `unresolvedHashes` set of `generateResolvedPatch`, in insertion
order: for every conflict with no matching resolution, every option hash
is added (deduplicated). -/
def unresolvedHashesList (conflicts : List ConflictDetail)
    (resolutions : List ConflictResolution) : List String :=
  conflicts.foldl
    (fun acc conflict =>
      match resolutions.find? (fun r => r.path = conflict.path) with
      | some _ => acc
      | none =>
          conflict.options.foldl
            (fun a h => if h ∈ a then a else a ++ [h]) acc)
    []

/-- `generateResolvedPatch`: flatten the groups; empty flat list gives an
empty result; no conflicts passes the flat list through; otherwise collect
the unresolved hashes and delegate to `resolveConflicts`. -/
def generateResolvedPatch (patches : List (List (Patch V)))
    (conflicts : List ConflictDetail)
    (resolutions : List ConflictResolution)
    (customResolutions : List (CustomConflictResolution V)) :
    ResolvedPatchResult V :=
  let allPatches := patches.flatten
  if allPatches.length = 0 then
    ⟨[], []⟩
  else if conflicts.length = 0 then
    ⟨[], allPatches⟩
  else
    ⟨unresolvedHashesList conflicts resolutions,
      resolveConflicts allPatches conflicts resolutions customResolutions⟩

/-- `initializeResolutions`: keep the conflicts with at least one option
and select the first option of each. -/
def initializeResolutions (conflicts : List ConflictDetail) :
    List ConflictResolution :=
  (conflicts.filter (fun conflict => conflict.options.length > 0)).map
    (fun conflict =>
      { path := conflict.path, selectedHash := conflict.options.headD "" })

/-- First-occurrence deduplication: the order in which a JavaScript `Set`
iterates the distinct elements inserted into it. -/
def dedupKeepFirst {α : Type} [DecidableEq α] : List α → List α
  | [] => []
  | a :: as => a :: dedupKeepFirst (as.filter (fun b => b ≠ a))
termination_by l => l.length
decreasing_by simpa using Nat.lt_succ_of_le (List.length_filter_le _ _)

/-- The resolution set derived from a prior merge: for each conflict whose
path received a patch in that merge, select that patch's hash.  This is
the feedback construction of the idempotence property. -/
def derivedResolutions (patches : List (Patch V))
    (conflicts : List ConflictDetail)
    (resolutions : List ConflictResolution) : List ConflictResolution :=
  conflicts.filterMap
    (fun c =>
      (selectForConflict patches resolutions c).map
        (fun p => ⟨c.path, p.hash⟩))

/-! ### Concrete sample values used by witnesses and counterexamples -/

/-- A sample patch with hash `"a"` at the conflicting path `"/x"`. -/
def samplePatchA : Patch String := ⟨PatchOperation.add, "/x", none, "a"⟩

/-- A sample patch with hash `"b"` at the conflicting path `"/x"`. -/
def samplePatchB : Patch String := ⟨PatchOperation.add, "/x", some "2", "b"⟩

/-- A sample non-conflicting patch with hash `"d"` at path `"/y"`. -/
def samplePatchD : Patch String := ⟨PatchOperation.replace, "/y", some "3", "d"⟩

/-- A sample caller-fabricated patch for path `"/x"`. -/
def samplePatchC : Patch String := ⟨PatchOperation.replace, "/x", some "9", "c"⟩

/-! ### Basic lemmas about the helpers -/

omit [DecidableEq V] in
theorem findMatchingPatch_eq_some {patches : List (Patch V)} {h : String}
    {p : Patch V} (hfind : findMatchingPatch patches h = some p) :
    p ∈ patches ∧ p.hash = h := by
  refine ⟨List.mem_of_find?_eq_some hfind, ?_⟩
  have := List.find?_some hfind
  simpa using this

theorem headD_mem {l : List String} (hne : l ≠ []) : l.headD "" ∈ l := by
  cases l with
  | nil => exact absurd rfl hne
  | cons x xs => simp [List.headD]

omit [DecidableEq V] in
/-- A patch selected for a conflict comes from the input list, carries one
of the conflict's option hashes, and is the first patch with that hash. -/
theorem selectForConflict_eq_some {patches : List (Patch V)}
    {resolutions : List ConflictResolution} {c : ConflictDetail}
    {p : Patch V} (hsel : selectForConflict patches resolutions c = some p) :
    p ∈ patches ∧ p.hash ∈ c.options ∧
      findMatchingPatch patches p.hash = some p := by
  have key : ∀ h : String, h ∈ c.options →
      findMatchingPatch patches h = some p →
      p ∈ patches ∧ p.hash ∈ c.options ∧
        findMatchingPatch patches p.hash = some p := by
    intro h hmem hfind
    obtain ⟨hp, hhash⟩ := findMatchingPatch_eq_some hfind
    exact ⟨hp, by rwa [hhash], by rwa [hhash]⟩
  have default_case :
      (if c.options.length > 0 then
        findMatchingPatch patches (c.options.headD "")
      else none) = some p →
      p ∈ patches ∧ p.hash ∈ c.options ∧
        findMatchingPatch patches p.hash = some p := by
    intro hd
    by_cases hlen : c.options.length > 0
    · rw [if_pos hlen] at hd
      exact key _ (headD_mem (List.length_pos.mp hlen)) hd
    · rw [if_neg hlen] at hd
      exact absurd hd (by simp)
  cases hres : resolutions.find? (fun res => res.path = c.path) with
  | none =>
    simp only [selectForConflict, hres] at hsel
    exact default_case hsel
  | some r =>
    simp only [selectForConflict, hres] at hsel
    by_cases hmem : r.selectedHash ∈ c.options
    · rw [if_pos hmem] at hsel
      exact key _ hmem hsel
    · rw [if_neg hmem] at hsel
      exact default_case hsel

/-- Membership in the included-patch set: exactly the patches selected for
some conflict of the list. -/
theorem mem_foldl_select (patches : List (Patch V))
    (resolutions : List ConflictResolution) (x : Patch V)
    (conflicts : List ConflictDetail) (acc : List (Patch V)) :
    x ∈ conflicts.foldl
        (fun acc conflict =>
          match selectForConflict patches resolutions conflict with
          | some p => if p ∈ acc then acc else acc ++ [p]
          | none => acc) acc ↔
      x ∈ acc ∨
        ∃ c ∈ conflicts, selectForConflict patches resolutions c = some x := by
  induction conflicts generalizing acc with
  | nil => simp
  | cons c cs ih =>
    rw [List.foldl_cons, ih]
    cases hsel : selectForConflict patches resolutions c with
    | none =>
      simp only [hsel, List.mem_cons]
      constructor
      · rintro (hx | ⟨d, hd, hdx⟩)
        · exact Or.inl hx
        · exact Or.inr ⟨d, Or.inr hd, hdx⟩
      · rintro (hx | ⟨d, rfl | hd, hdx⟩)
        · exact Or.inl hx
        · rw [hsel] at hdx; exact absurd hdx (by simp)
        · exact Or.inr ⟨d, hd, hdx⟩
    | some p =>
      simp only [hsel, List.mem_cons]
      by_cases hp : p ∈ acc
      · rw [if_pos hp]
        constructor
        · rintro (hx | ⟨d, hd, hdx⟩)
          · exact Or.inl hx
          · exact Or.inr ⟨d, Or.inr hd, hdx⟩
        · rintro (hx | ⟨d, rfl | hd, hdx⟩)
          · exact Or.inl hx
          · rw [hsel] at hdx
            obtain rfl : p = x := by simpa using hdx
            exact Or.inl hp
          · exact Or.inr ⟨d, hd, hdx⟩
      · rw [if_neg hp]
        constructor
        · rintro (hx | ⟨d, hd, hdx⟩)
          · rcases List.mem_append.mp hx with hx | hx
            · exact Or.inl hx
            · obtain rfl : x = p := by simpa using hx
              exact Or.inr ⟨c, Or.inl rfl, hsel⟩
          · exact Or.inr ⟨d, Or.inr hd, hdx⟩
        · rintro (hx | ⟨d, rfl | hd, hdx⟩)
          · exact Or.inl (List.mem_append.mpr (Or.inl hx))
          · rw [hsel] at hdx
            obtain rfl : p = x := by simpa using hdx
            exact Or.inl (by simp)
          · exact Or.inr ⟨d, hd, hdx⟩

theorem mem_includedPatchesList {patches : List (Patch V)}
    {conflicts : List ConflictDetail}
    {resolutions : List ConflictResolution} {x : Patch V} :
    x ∈ includedPatchesList patches conflicts resolutions ↔
      ∃ c ∈ conflicts, selectForConflict patches resolutions c = some x := by
  rw [includedPatchesList, mem_foldl_select]
  simp

theorem mem_dedupKeepFirst {α : Type} [DecidableEq α] (x : α) :
    ∀ l : List α, x ∈ dedupKeepFirst l ↔ x ∈ l
  | [] => by rw [dedupKeepFirst]
  | a :: as => by
    rw [dedupKeepFirst]
    have ih := mem_dedupKeepFirst x (as.filter (fun b => b ≠ a))
    simp only [List.mem_cons, ih, List.mem_filter, decide_eq_true_eq]
    by_cases hx : x = a
    · simp [hx]
    · simp [hx]
termination_by l => l.length
decreasing_by simpa using Nat.lt_succ_of_le (List.length_filter_le _ _)

theorem nodup_dedupKeepFirst {α : Type} [DecidableEq α] :
    ∀ l : List α, (dedupKeepFirst l).Nodup
  | [] => by rw [dedupKeepFirst]; exact List.nodup_nil
  | a :: as => by
    rw [dedupKeepFirst]
    refine List.nodup_cons.mpr ⟨?_, nodup_dedupKeepFirst _⟩
    rw [mem_dedupKeepFirst]
    simp
termination_by l => l.length
decreasing_by simpa using Nat.lt_succ_of_le (List.length_filter_le _ _)

/-- Folding set-insertion over a list appends the first occurrences of the
elements not already present. -/
theorem foldl_insertDedup {α : Type} [DecidableEq α] :
    ∀ (l acc : List α),
      l.foldl (fun a x => if x ∈ a then a else a ++ [x]) acc =
        acc ++ dedupKeepFirst (l.filter (fun x => x ∉ acc))
  | [], acc => by simp [dedupKeepFirst]
  | x :: xs, acc => by
    rw [List.foldl_cons, List.filter_cons]
    by_cases hx : x ∈ acc
    · rw [if_pos hx, foldl_insertDedup xs acc]
      simp [hx]
    · rw [if_neg hx, foldl_insertDedup xs (acc ++ [x])]
      have hfilter : xs.filter (fun y => y ∉ acc ++ [x]) =
          (xs.filter (fun y => y ∉ acc)).filter (fun y => y ≠ x) := by
        rw [List.filter_filter]
        apply List.filter_congr
        intro y _
        rcases Decidable.em (y = x) with hyx | hyx
        · simp [hyx, hx]
        · simp [hyx, List.mem_append]
      rw [hfilter, if_pos (by simpa using hx), dedupKeepFirst]
      simp

/-- The loop over the conflicts inserts exactly the successfully selected
patches, in conflict order. -/
theorem includedPatchesList_eq_dedup (patches : List (Patch V))
    (conflicts : List ConflictDetail)
    (resolutions : List ConflictResolution) :
    includedPatchesList patches conflicts resolutions =
      dedupKeepFirst
        (conflicts.filterMap (selectForConflict patches resolutions)) := by
  have step : ∀ (cs : List ConflictDetail) (acc : List (Patch V)),
      cs.foldl
          (fun acc conflict =>
            match selectForConflict patches resolutions conflict with
            | some p => if p ∈ acc then acc else acc ++ [p]
            | none => acc) acc =
        (cs.filterMap (selectForConflict patches resolutions)).foldl
          (fun a x => if x ∈ a then a else a ++ [x]) acc := by
    intro cs
    induction cs with
    | nil => intro acc; rfl
    | cons c cs ih =>
      intro acc
      rw [List.foldl_cons, List.filterMap_cons]
      cases hsel : selectForConflict patches resolutions c with
      | none => exact ih _
      | some p => exact ih _
  rw [includedPatchesList, step, foldl_insertDedup]
  simp

/-- With a non-empty conflicts list the merge is the concatenation of the
non-conflicting patches, the deduplicated selected patches in conflict
order, and the custom patches in order. -/
theorem resolveConflicts_eq_append (patches : List (Patch V))
    {conflicts : List ConflictDetail}
    (resolutions : List ConflictResolution)
    (customResolutions : List (CustomConflictResolution V))
    (hne : conflicts ≠ []) :
    resolveConflicts patches conflicts resolutions customResolutions =
      patches.filter
          (fun patch =>
            patch.path ∉ conflicts.map (fun conflict => conflict.path)) ++
        dedupKeepFirst
          (conflicts.filterMap (selectForConflict patches resolutions)) ++
        customResolutions.map (fun cr => cr.patch) := by
  rw [resolveConflicts, if_neg (by simpa using hne),
    includedPatchesList_eq_dedup]
  cases customResolutions with
  | nil => simp
  | cons cr crs => simp

theorem mem_foldl_insert {α : Type} [DecidableEq α] (x : α)
    (l acc : List α) :
    x ∈ l.foldl (fun a h => if h ∈ a then a else a ++ [h]) acc ↔
      x ∈ acc ∨ x ∈ l := by
  rw [foldl_insertDedup, List.mem_append, mem_dedupKeepFirst,
    List.mem_filter]
  by_cases hx : x ∈ acc
  · simp [hx]
  · simp [hx]

/-- Membership in the unresolved-hash set: exactly the option hashes of
the conflicts with no matching resolution. -/
theorem mem_unresolvedHashesList {conflicts : List ConflictDetail}
    {resolutions : List ConflictResolution} {x : String} :
    x ∈ unresolvedHashesList conflicts resolutions ↔
      ∃ c ∈ conflicts,
        resolutions.find? (fun r => r.path = c.path) = none ∧
          x ∈ c.options := by
  have main : ∀ (cs : List ConflictDetail) (acc : List String),
      x ∈ cs.foldl
          (fun acc conflict =>
            match resolutions.find? (fun r => r.path = conflict.path) with
            | some _ => acc
            | none =>
                conflict.options.foldl
                  (fun a h => if h ∈ a then a else a ++ [h]) acc) acc ↔
        x ∈ acc ∨
          ∃ c ∈ cs,
            resolutions.find? (fun r => r.path = c.path) = none ∧
              x ∈ c.options := by
    intro cs
    induction cs with
    | nil => simp
    | cons c cs ih =>
      intro acc
      rw [List.foldl_cons]
      cases hres : resolutions.find? (fun r => r.path = c.path) with
      | some r =>
        rw [ih]
        simp only [List.mem_cons]
        constructor
        · rintro (hx | ⟨d, hd, hdr, hdx⟩)
          · exact Or.inl hx
          · exact Or.inr ⟨d, Or.inr hd, hdr, hdx⟩
        · rintro (hx | ⟨d, rfl | hd, hdr, hdx⟩)
          · exact Or.inl hx
          · rw [hres] at hdr; exact absurd hdr (by simp)
          · exact Or.inr ⟨d, hd, hdr, hdx⟩
      | none =>
        rw [ih, mem_foldl_insert]
        simp only [List.mem_cons]
        constructor
        · rintro (⟨hx | hx⟩ | ⟨d, hd, hdr, hdx⟩)
          · exact Or.inl hx
          · exact Or.inr ⟨c, Or.inl rfl, hres, hx⟩
          · exact Or.inr ⟨d, Or.inr hd, hdr, hdx⟩
        · rintro (hx | ⟨d, rfl | hd, hdr, hdx⟩)
          · exact Or.inl (Or.inl hx)
          · exact Or.inl (Or.inr hdx)
          · exact Or.inr ⟨d, hd, hdr, hdx⟩
  rw [unresolvedHashesList, main]
  simp

/-- The included-patch set only depends on the resolutions through the
per-conflict selection. -/
theorem includedPatchesList_congr (patches : List (Patch V))
    {conflicts : List ConflictDetail}
    (res1 res2 : List ConflictResolution)
    (h : ∀ c ∈ conflicts,
      selectForConflict patches res1 c = selectForConflict patches res2 c) :
    includedPatchesList patches conflicts res1 =
      includedPatchesList patches conflicts res2 := by
  rw [includedPatchesList, includedPatchesList]
  have main : ∀ (cs : List ConflictDetail) (acc : List (Patch V)),
      (∀ c ∈ cs,
        selectForConflict patches res1 c =
          selectForConflict patches res2 c) →
      cs.foldl
          (fun acc conflict =>
            match selectForConflict patches res1 conflict with
            | some p => if p ∈ acc then acc else acc ++ [p]
            | none => acc) acc =
        cs.foldl
          (fun acc conflict =>
            match selectForConflict patches res2 conflict with
            | some p => if p ∈ acc then acc else acc ++ [p]
            | none => acc) acc := by
    intro cs
    induction cs with
    | nil => intro acc _; rfl
    | cons c cs ih =>
      intro acc hsel
      rw [List.foldl_cons, List.foldl_cons,
        hsel c (List.mem_cons_self c cs)]
      exact ih _ (fun d hd => hsel d (List.mem_cons_of_mem c hd))
  exact main conflicts [] h

/-- In a conflict list with pairwise distinct paths, a path determines
the conflict. -/
theorem eq_of_pairwise_path {l : List ConflictDetail}
    (h : l.Pairwise (fun c d => c.path ≠ d.path)) :
    ∀ c1 ∈ l, ∀ c2 ∈ l, c1.path = c2.path → c1 = c2 := by
  induction l with
  | nil => simp
  | cons c cs ih =>
    rcases List.pairwise_cons.mp h with ⟨hc, hcs⟩
    intro c1 h1 c2 h2 heq
    rcases List.mem_cons.mp h1 with he1 | ht1
    · rcases List.mem_cons.mp h2 with he2 | ht2
      · rw [he1, he2]
      · subst he1; exact absurd heq (hc _ ht2)
    · rcases List.mem_cons.mp h2 with he2 | ht2
      · subst he2; exact absurd heq.symm (hc _ ht1)
      · exact ih hcs c1 ht1 c2 ht2 heq

omit [DecidableEq V] in
/-- Looking up a conflict's path in the derived resolutions finds the hash
of the patch selected for that conflict, when the conflict paths are
pairwise distinct. -/
theorem find_derivedResolutions {patches : List (Patch V)}
    {resolutions : List ConflictResolution} :
    ∀ {conflicts : List ConflictDetail},
      conflicts.Pairwise (fun c d => c.path ≠ d.path) →
      ∀ {c : ConflictDetail} {p : Patch V}, c ∈ conflicts →
        selectForConflict patches resolutions c = some p →
        (derivedResolutions patches conflicts resolutions).find?
            (fun res => res.path = c.path) = some ⟨c.path, p.hash⟩ := by
  intro conflicts
  induction conflicts with
  | nil => intro _ c p hc; simp at hc
  | cons d ds ih =>
    intro hcp c p hc hsel
    rcases List.pairwise_cons.mp hcp with ⟨hd, hds⟩
    rw [derivedResolutions, List.filterMap_cons]
    rcases List.mem_cons.mp hc with rfl | hc
    · rw [hsel]
      simp [List.find?_cons]
    · cases hseld : selectForConflict patches resolutions d with
      | none => exact ih hds hc hsel
      | some q =>
        simp only [Option.map_some']
        rw [List.find?_cons_of_neg _ (by simpa using (hd c hc))]
        exact ih hds hc hsel

omit [DecidableEq V] in
/-- With pairwise distinct conflict paths, the selection computed from the
derived resolutions agrees with the original selection wherever the
original selection succeeded. -/
theorem selectForConflict_derived {patches : List (Patch V)}
    {conflicts : List ConflictDetail}
    {resolutions : List ConflictResolution}
    (hcp : conflicts.Pairwise (fun c d => c.path ≠ d.path))
    {c : ConflictDetail} (hc : c ∈ conflicts)
    {p : Patch V} (hsel : selectForConflict patches resolutions c = some p) :
    selectForConflict patches
        (derivedResolutions patches conflicts resolutions) c = some p := by
  obtain ⟨hp, hopt, hfind⟩ := selectForConflict_eq_some hsel
  have hfound := find_derivedResolutions hcp hc hsel
  simp only [selectForConflict, hfound]
  rw [if_pos hopt]
  exact hfind

/-- C2: with an empty conflicts list, `resolveConflicts` returns the input
patch list unchanged — same elements, order and multiplicity — whatever
the resolutions and custom resolutions are. -/
theorem resolveConflicts_no_conflicts (patches : List (Patch V))
    (resolutions : List ConflictResolution)
    (customResolutions : List (CustomConflictResolution V)) :
    resolveConflicts patches [] resolutions customResolutions = patches :=
  rfl

/-- C5: `initializeResolutions` emits, in conflict-list order, exactly one
default resolution per conflict with non-empty options — the conflict's
path paired with its first option — and drops every conflict with empty
options. -/
theorem initializeResolutions_first_options
    (conflicts : List ConflictDetail) :
    initializeResolutions conflicts =
      conflicts.filterMap
        (fun conflict =>
          match conflict.options with
          | [] => none
          | h :: _ => some ⟨conflict.path, h⟩) := by
  induction conflicts with
  | nil => rfl
  | cons c cs ih =>
    rw [initializeResolutions, List.filterMap_cons, List.filter_cons]
    rw [initializeResolutions] at ih
    cases hopt : c.options with
    | nil =>
      simp only [hopt]
      rw [if_neg (by simp)]
      exact ih
    | cons h t =>
      simp only [hopt]
      rw [if_pos (by simp), List.map_cons, ih]
      simp [hopt]

/-- C3: a conflict whose matching resolution selects a hash outside its
options falls back to the first option: the merge selects the first patch
with that hash (when one exists) and includes it in the output, not the
patch named by the resolution. -/
theorem resolveConflicts_invalid_selection_falls_back
    (patches : List (Patch V)) {conflicts : List ConflictDetail}
    (resolutions : List ConflictResolution)
    (customResolutions : List (CustomConflictResolution V))
    {c : ConflictDetail} (r : ConflictResolution) {p : Patch V}
    (hc : c ∈ conflicts)
    (hr : resolutions.find? (fun res => res.path = c.path) = some r)
    (hsel : r.selectedHash ∉ c.options)
    (hopt : c.options ≠ [])
    (hfind : findMatchingPatch patches (c.options.headD "") = some p) :
    selectForConflict patches resolutions c = some p ∧
      p ∈ resolveConflicts patches conflicts resolutions
        customResolutions := by
  have hselect : selectForConflict patches resolutions c = some p := by
    simp only [selectForConflict, hr, if_neg hsel]
    rw [if_pos (List.length_pos.mpr hopt)]
    exact hfind
  refine ⟨hselect, ?_⟩
  have hne : conflicts ≠ [] := by rintro rfl; simp at hc
  rw [resolveConflicts, if_neg (by simpa using hne)]
  refine List.mem_append.mpr (Or.inl (List.mem_append.mpr (Or.inr ?_)))
  exact mem_includedPatchesList.mpr ⟨c, hc, hselect⟩

/-- Witness for C3 at a concrete input: the resolution names the unknown
hash `"z"`, so the first option `"a"` wins. -/
theorem resolveConflicts_invalid_selection_falls_back_witness :
    selectForConflict [samplePatchA, samplePatchB] [⟨"/x", "z"⟩]
        ⟨"/x", ["a", "b"]⟩ = some samplePatchA ∧
      samplePatchA ∈ resolveConflicts [samplePatchA, samplePatchB]
        [⟨"/x", ["a", "b"]⟩] [⟨"/x", "z"⟩]
        ([] : List (CustomConflictResolution String)) :=
  resolveConflicts_invalid_selection_falls_back _ _ _ ⟨"/x", "z"⟩
    (by decide) (by decide) (by decide) (by decide) (by decide)

/-- C4: with non-empty flattened patches and non-empty conflicts, a hash
appears in `unresolvedConflicts` iff it is an option of some conflict
whose path matches no resolution — in particular all option hashes of a
resolution-less conflict are included. -/
theorem generateResolvedPatch_unresolved_iff
    (patches : List (List (Patch V))) (conflicts : List ConflictDetail)
    (resolutions : List ConflictResolution)
    (customResolutions : List (CustomConflictResolution V)) (h : String)
    (hpat : patches.flatten ≠ []) (hconf : conflicts ≠ []) :
    h ∈ (generateResolvedPatch patches conflicts resolutions
        customResolutions).unresolvedConflicts ↔
      ∃ c ∈ conflicts,
        resolutions.find? (fun r => r.path = c.path) = none ∧
          h ∈ c.options := by
  simp only [generateResolvedPatch]
  rw [if_neg (by simpa only [List.length_eq_zero] using hpat),
    if_neg (by simpa only [List.length_eq_zero] using hconf)]
  exact mem_unresolvedHashesList

/-- Witness for C4 at a concrete input: with no resolutions, both option
hashes of the conflict are flagged unresolved, though the merge defaults
to the first option. -/
theorem generateResolvedPatch_unresolved_witness :
    "b" ∈ (generateResolvedPatch [[samplePatchA]] [⟨"/x", ["a", "b"]⟩]
        [] ([] : List (CustomConflictResolution String))).unresolvedConflicts :=
  (generateResolvedPatch_unresolved_iff _ _ _ _ _ (by decide)
    (by decide)).mpr (by decide)

/-- C7: a resolution selecting a hash inside the options that matches no
patch, and a conflict with empty options, both select nothing — the
lookup miss does not fall back to the first option — and the conflict
then contributes no patch to the included set (total functions, so no
exception is possible). -/
theorem resolveConflicts_miss_contributes_nothing
    (patches : List (Patch V)) (resolutions : List ConflictResolution)
    {c : ConflictDetail}
    (hcase :
      (∃ r, resolutions.find? (fun res => res.path = c.path) = some r ∧
        r.selectedHash ∈ c.options ∧
        findMatchingPatch patches r.selectedHash = none) ∨
      c.options = []) :
    selectForConflict patches resolutions c = none ∧
      ∀ l1 l2 : List ConflictDetail,
        includedPatchesList patches (l1 ++ c :: l2) resolutions =
          includedPatchesList patches (l1 ++ l2) resolutions := by
  have hnone : selectForConflict patches resolutions c = none := by
    rcases hcase with ⟨r, hr, hmem, hfind⟩ | hopt
    · simp only [selectForConflict, hr, if_pos hmem]
      exact hfind
    · cases hres : resolutions.find? (fun res => res.path = c.path) with
      | none => simp [selectForConflict, hres, hopt]
      | some r => simp [selectForConflict, hres, hopt]
  refine ⟨hnone, fun l1 l2 => ?_⟩
  rw [includedPatchesList, includedPatchesList, List.foldl_append,
    List.foldl_append, List.foldl_cons]
  simp only [hnone]

/-- Witness for C7 at a concrete input: the resolution selects the option
hash `"b"` which matches no patch; the conflict contributes nothing. -/
theorem resolveConflicts_miss_contributes_nothing_witness :
    selectForConflict [samplePatchA] [⟨"/x", "b"⟩] ⟨"/x", ["b"]⟩ = none ∧
      includedPatchesList [samplePatchA] [⟨"/x", ["b"]⟩] [⟨"/x", "b"⟩] =
        includedPatchesList [samplePatchA] [] [⟨"/x", "b"⟩] := by
  have h := resolveConflicts_miss_contributes_nothing [samplePatchA]
    [⟨"/x", "b"⟩] (c := ⟨"/x", ["b"]⟩)
    (Or.inl ⟨⟨"/x", "b"⟩, by decide, by decide, by decide⟩)
  exact ⟨h.1, h.2 [] []⟩

/-- C8: `generateResolvedPatch` returns the empty result when the
flattened patch list is empty — even when unresolved conflicts are
present — and passes all flattened patches through with no unresolved
hashes when the conflicts list is empty. -/
theorem generateResolvedPatch_empty_cases
    (patches : List (List (Patch V))) (conflicts : List ConflictDetail)
    (resolutions : List ConflictResolution)
    (customResolutions : List (CustomConflictResolution V)) :
    (patches.flatten = [] →
      generateResolvedPatch patches conflicts resolutions
        customResolutions = ⟨[], []⟩) ∧
      (patches.flatten ≠ [] → conflicts = [] →
        generateResolvedPatch patches conflicts resolutions
          customResolutions = ⟨[], patches.flatten⟩) := by
  constructor
  · intro hflat
    simp [generateResolvedPatch, hflat]
  · intro hflat hconf
    subst hconf
    simp only [generateResolvedPatch]
    rw [if_neg (by simpa only [List.length_eq_zero] using hflat)]
    rfl

/-- Witness for C8 at concrete inputs: empty groups give the empty result
even with an unresolved conflict present; no conflicts pass the flattened
patches through. -/
theorem generateResolvedPatch_empty_cases_witness :
    generateResolvedPatch ([[], []] : List (List (Patch String)))
        [⟨"/x", ["a"]⟩] [] [] = ⟨[], []⟩ ∧
      generateResolvedPatch [[samplePatchA], [samplePatchD]] [] []
        ([] : List (CustomConflictResolution String)) =
        ⟨[], [samplePatchA, samplePatchD]⟩ :=
  ⟨(generateResolvedPatch_empty_cases _ _ _ _).1 (by decide),
    (generateResolvedPatch_empty_cases _ _ _ _).2 (by decide) rfl⟩

/-- C6: with non-empty conflicts the merge output is exactly three
segments in order — the non-conflicting input patches in original order,
the patches selected per conflict in conflict-list order deduplicated to
first occurrences, and the custom patches in the order supplied (appended
unconditionally, never deduplicated against the second segment) — and the
middle segment holds no duplicate patch. -/
theorem resolveConflicts_output_ordering
    (patches : List (Patch V)) {conflicts : List ConflictDetail}
    (resolutions : List ConflictResolution)
    (customResolutions : List (CustomConflictResolution V))
    (hne : conflicts ≠ []) :
    resolveConflicts patches conflicts resolutions customResolutions =
        patches.filter
            (fun patch =>
              patch.path ∉
                conflicts.map (fun conflict => conflict.path)) ++
          dedupKeepFirst
            (conflicts.filterMap
              (selectForConflict patches resolutions)) ++
          customResolutions.map (fun cr => cr.patch) ∧
      (dedupKeepFirst
          (conflicts.filterMap
            (selectForConflict patches resolutions))).Nodup :=
  ⟨resolveConflicts_eq_append patches resolutions customResolutions hne,
    nodup_dedupKeepFirst _⟩

/-- Witness for C6 at a concrete input with two conflicting patches, a
non-conflicting patch and a custom resolution. -/
theorem resolveConflicts_output_ordering_witness :
    resolveConflicts [samplePatchA, samplePatchB, samplePatchD]
        [⟨"/x", ["a", "b"]⟩] [] [⟨"/x", samplePatchC⟩] =
        [samplePatchA, samplePatchB, samplePatchD].filter
            (fun patch =>
              patch.path ∉
                [(⟨"/x", ["a", "b"]⟩ : ConflictDetail)].map
                  (fun conflict => conflict.path)) ++
          dedupKeepFirst
            ([(⟨"/x", ["a", "b"]⟩ : ConflictDetail)].filterMap
              (selectForConflict [samplePatchA, samplePatchB, samplePatchD]
                [])) ++
          [(⟨"/x", samplePatchC⟩ : CustomConflictResolution String)].map
            (fun cr => cr.patch) ∧
      (dedupKeepFirst
          ([(⟨"/x", ["a", "b"]⟩ : ConflictDetail)].filterMap
            (selectForConflict [samplePatchA, samplePatchB, samplePatchD]
              []))).Nodup :=
  resolveConflicts_output_ordering _ _ _ (by decide)

/-- C10: with non-empty conflicts, every output patch at a conflict path
is either a patch selected for some conflict or an embedded custom patch;
an input patch at a conflict path that is neither selected for any
conflict nor a custom patch is excluded from the output. -/
theorem resolveConflicts_conflict_path_patches
    (patches : List (Patch V)) {conflicts : List ConflictDetail}
    (resolutions : List ConflictResolution)
    (customResolutions : List (CustomConflictResolution V))
    (hne : conflicts ≠ []) :
    (∀ p ∈ resolveConflicts patches conflicts resolutions
        customResolutions,
        p.path ∈ conflicts.map (fun c => c.path) →
        (∃ c ∈ conflicts,
            selectForConflict patches resolutions c = some p) ∨
          p ∈ customResolutions.map (fun cr => cr.patch)) ∧
      ∀ q ∈ patches, q.path ∈ conflicts.map (fun c => c.path) →
        (∀ c ∈ conflicts,
          selectForConflict patches resolutions c ≠ some q) →
        q ∉ customResolutions.map (fun cr => cr.patch) →
        q ∉ resolveConflicts patches conflicts resolutions
          customResolutions := by
  rw [resolveConflicts_eq_append patches resolutions customResolutions hne]
  constructor
  · intro p hp hpath
    rcases List.mem_append.mp hp with hp | hp
    · rcases List.mem_append.mp hp with hp | hp
      · have h2 := (List.mem_filter.mp hp).2
        simp only [decide_not, Bool.not_eq_true', decide_eq_false_iff_not] at h2
        exact absurd hpath h2
      · rw [mem_dedupKeepFirst] at hp
        obtain ⟨c, hc, hcp⟩ := List.mem_filterMap.mp hp
        exact Or.inl ⟨c, hc, hcp⟩
    · exact Or.inr hp
  · intro q hq hpath hnotsel hnotcustom hmem
    rcases List.mem_append.mp hmem with hm | hm
    · rcases List.mem_append.mp hm with hm | hm
      · have h2 := (List.mem_filter.mp hm).2
        simp only [decide_not, Bool.not_eq_true', decide_eq_false_iff_not] at h2
        exact absurd hpath h2
      · rw [mem_dedupKeepFirst] at hm
        obtain ⟨c, hc, hcp⟩ := List.mem_filterMap.mp hm
        exact hnotsel c hc hcp
    · exact hnotcustom hm

/-- Witness for C10 at a concrete input: the defaulted conflict keeps the
first-option patch and excludes the unselected same-path patch. -/
theorem resolveConflicts_conflict_path_patches_witness :
    samplePatchB ∉ resolveConflicts [samplePatchA, samplePatchB]
        [⟨"/x", ["a", "b"]⟩] []
        ([] : List (CustomConflictResolution String)) :=
  (resolveConflicts_conflict_path_patches _ _ _ (by decide)).2
    samplePatchB (by decide) (by decide) (by decide) (by decide)

/-- C1 counterexample: a custom resolution for a conflicting path coexists
with the patch selected for that conflict, so the merged output holds two
patches at path `"/x"` and the paths of the output are not unique. -/
theorem resolveConflicts_path_not_unique :
    ¬ ((resolveConflicts [samplePatchA] [⟨"/x", ["a"]⟩] []
        [⟨"/x", samplePatchC⟩]).map (fun p => p.path)).Nodup := by
  decide

/-- C1 amended: when the conflict paths are pairwise distinct, every patch
hash listed among a conflict's options belongs to a patch at that
conflict's path, input patches repeat a path only at conflict paths, and
no custom resolutions are supplied, every path appears at most once in
the merged output. -/
theorem resolveConflicts_paths_unique_of_wellformed
    (patches : List (Patch V)) {conflicts : List ConflictDetail}
    (resolutions : List ConflictResolution)
    (hcp : conflicts.Pairwise (fun c d => c.path ≠ d.path))
    (hopt : ∀ p ∈ patches, ∀ c ∈ conflicts,
      p.hash ∈ c.options → p.path = c.path)
    (hpp : patches.Pairwise
      (fun p q =>
        p.path = q.path →
          p.path ∈ conflicts.map (fun c => c.path))) :
    ((resolveConflicts patches conflicts resolutions []).map
        (fun p => p.path)).Nodup := by
  have key : (resolveConflicts patches conflicts resolutions []).Pairwise
      (fun p q => p.path ≠ q.path) := by
    by_cases hne : conflicts = []
    · subst hne
      have hid : resolveConflicts patches [] resolutions [] = patches := rfl
      rw [hid]
      exact hpp.imp (fun h heq => absurd (h heq) (by simp))
    · rw [resolveConflicts_eq_append patches resolutions [] hne]
      simp only [List.map_nil, List.append_nil]
      rw [List.pairwise_append]
      refine ⟨?_, ?_, ?_⟩
      · refine (List.Pairwise.filter _ hpp).imp_of_mem ?_
        intro a b ha _ hab heq
        have h2 := (List.mem_filter.mp ha).2
        simp only [decide_not, Bool.not_eq_true', decide_eq_false_iff_not]
          at h2
        exact h2 (hab heq)
      · have hinj : ∀ p ∈ conflicts.filterMap
            (selectForConflict patches resolutions),
            ∀ q ∈ conflicts.filterMap
              (selectForConflict patches resolutions),
            p.path = q.path → p = q := by
          intro p hp q hq heq
          obtain ⟨c1, hc1, hs1⟩ := List.mem_filterMap.mp hp
          obtain ⟨c2, hc2, hs2⟩ := List.mem_filterMap.mp hq
          obtain ⟨hp1, ho1, _⟩ := selectForConflict_eq_some hs1
          obtain ⟨hp2, ho2, _⟩ := selectForConflict_eq_some hs2
          have e1 : p.path = c1.path := hopt p hp1 c1 hc1 ho1
          have e2 : q.path = c2.path := hopt q hp2 c2 hc2 ho2
          have hcc : c1 = c2 :=
            eq_of_pairwise_path hcp c1 hc1 c2 hc2
              (by rw [← e1, ← e2, heq])
          subst hcc
          rw [hs1] at hs2
          exact Option.some_inj.mp hs2
        refine List.Pairwise.imp_of_mem ?_ (nodup_dedupKeepFirst _)
        intro a b ha hb hne2 heq
        rw [mem_dedupKeepFirst] at ha hb
        exact hne2 (hinj a ha b hb heq)
      · intro a ha b hb
        have h2 := (List.mem_filter.mp ha).2
        simp only [decide_not, Bool.not_eq_true', decide_eq_false_iff_not]
          at h2
        rw [mem_dedupKeepFirst] at hb
        obtain ⟨c, hc, hcs⟩ := List.mem_filterMap.mp hb
        obtain ⟨hbp, hbo, _⟩ := selectForConflict_eq_some hcs
        have hbc : b.path = c.path := hopt b hbp c hc hbo
        intro heq
        apply h2
        rw [heq, hbc]
        exact List.mem_map.mpr ⟨c, hc, rfl⟩
  exact List.pairwise_map.mpr key

/-- Witness for the amended C1 at a concrete well-formed input. -/
theorem resolveConflicts_paths_unique_witness :
    ((resolveConflicts [samplePatchA, samplePatchB, samplePatchD]
        [⟨"/x", ["a", "b"]⟩] []
        ([] : List (CustomConflictResolution String))).map
      (fun p => p.path)).Nodup :=
  resolveConflicts_paths_unique_of_wellformed _ _ (by decide) (by decide)
    (by decide)

/-- C9 counterexample: a resolution selecting an option hash that matches
no patch makes the original merge select nothing, so the derived
resolution set is empty and the rerun applies the first-option default,
producing a different merged list. -/
theorem resolveConflicts_feedback_not_idempotent :
    resolveConflicts [samplePatchA] [⟨"/x", ["a", "b"]⟩]
        (derivedResolutions [samplePatchA] [⟨"/x", ["a", "b"]⟩]
          [⟨"/x", "b"⟩]) [] ≠
      resolveConflicts [samplePatchA] [⟨"/x", ["a", "b"]⟩]
        [⟨"/x", "b"⟩] ([] : List (CustomConflictResolution String)) := by
  decide

/-- C9 amended: when the conflict paths are pairwise distinct and the
merge selects a patch for every conflict, rerunning `resolveConflicts`
with the resolutions derived from its own output returns the same merged
patch list. -/
theorem resolveConflicts_feedback_idempotent_of_selected
    (patches : List (Patch V)) {conflicts : List ConflictDetail}
    (resolutions : List ConflictResolution)
    (customResolutions : List (CustomConflictResolution V))
    (hcp : conflicts.Pairwise (fun c d => c.path ≠ d.path))
    (hall : ∀ c ∈ conflicts,
      selectForConflict patches resolutions c ≠ none) :
    resolveConflicts patches conflicts
        (derivedResolutions patches conflicts resolutions)
        customResolutions =
      resolveConflicts patches conflicts resolutions customResolutions := by
  by_cases hne : conflicts = []
  · subst hne; rfl
  · have hsel : ∀ c ∈ conflicts,
        selectForConflict patches
            (derivedResolutions patches conflicts resolutions) c =
          selectForConflict patches resolutions c := by
      intro c hc
      cases hs : selectForConflict patches resolutions c with
      | none => exact absurd hs (hall c hc)
      | some p => exact selectForConflict_derived hcp hc hs
    simp only [resolveConflicts]
    rw [includedPatchesList_congr patches
      (derivedResolutions patches conflicts resolutions) resolutions hsel]

/-- Witness for the amended C9 at a concrete input whose single conflict
receives the first-option default. -/
theorem resolveConflicts_feedback_idempotent_witness :
    resolveConflicts [samplePatchA] [⟨"/x", ["a"]⟩]
        (derivedResolutions [samplePatchA] [⟨"/x", ["a"]⟩] []) [] =
      resolveConflicts [samplePatchA] [⟨"/x", ["a"]⟩] []
        ([] : List (CustomConflictResolution String)) :=
  resolveConflicts_feedback_idempotent_of_selected _ _ _ (by decide)
    (by decide)
